import Mathlib

/-!
Verification of the learning-rule/training core of `classifier-HO.py`.

The embedding is shallow: numpy rank-1 arrays become `List` values, rank-2
arrays become lists of rows, IEEE floats become exact rationals (and reals
where square roots appear, namely in row normalization).  Python `assert`
failures, `ZeroDivisionError` from `% 0` and `IndexError` from an
out-of-range index become explicit error values.  The process-wide numpy
random generator is threaded explicitly: a state type `σ` together with a
`drawPerm : σ → ℕ → List ℕ × σ` function stands for
`np.random.permutation`, and `np.random.seed(run)` becomes starting from
the state `seedFn run`.
-/

namespace ClassifierHO

/-- Rank-1 numpy array. -/
abbrev Vec (α : Type) : Type := List α

/-- Rank-2 numpy array, one inner list per row. -/
abbrev Mat (α : Type) : Type := List (List α)

/-- Inner product of two equal-length vectors (`np.dot` on rank-1 operands). -/
def dotVec {α : Type} [Field α] (w x : Vec α) : α :=
  (List.zipWith (fun a b => a * b) w x).sum

/-- `np.dot(W, x)` of a matrix with a vector: one inner product per row. -/
def matVec {α : Type} [Field α] (W : Mat α) (x : Vec α) : Vec α :=
  W.map (fun r => dotVec r x)

/-- `np.outer(y, x)`: the matrix whose entry `(i, j)` is `y i * x j`. -/
def outer {α : Type} [Field α] (y x : Vec α) : Mat α :=
  y.map (fun yi => x.map (fun xj => yi * xj))

/-- Elementwise sum of two matrices (numpy `+` on same-shape rank-2 arrays). -/
def matAdd {α : Type} [Field α] (A B : Mat α) : Mat α :=
  List.zipWith (List.zipWith (fun a b => a + b)) A B

/-- Scalar times matrix (numpy scalar broadcasting). -/
def smulMat {α : Type} [Field α] (c : α) (A : Mat α) : Mat α :=
  A.map (List.map (fun a => c * a))

/-- The plain Hebbian rule `r_hebb = lambda W, x, y, eta: W + eta * np.outer(y, x.T)`. -/
def r_hebb {α : Type} [Field α] (W : Mat α) (x y : Vec α) (eta : α) : Mat α :=
  matAdd W (smulMat eta (outer y x))

/-- The Hebb-with-decay rule
`r_decay = lambda W, x, y, eta: W + eta * ((x - W) * y[:, None])`:
entry `(i, j)` becomes `W i j + eta * ((x j - W i j) * y i)`. -/
def r_decay {α : Type} [Field α] (W : Mat α) (x y : Vec α) (eta : α) : Mat α :=
  List.zipWith (fun Wi yi => List.zipWith (fun wij xj => wij + eta * ((xj - wij) * yi)) Wi x) W y

/-- Oja's rule
`r_ojas = lambda W, x, y, eta: W + eta * ((x - W * y[:, None]) * y[:, None])`:
entry `(i, j)` becomes `W i j + eta * ((x j - W i j * y i) * y i)`. -/
def r_ojas {α : Type} [Field α] (W : Mat α) (x y : Vec α) (eta : α) : Mat α :=
  List.zipWith (fun Wi yi => List.zipWith (fun wij xj => wij + eta * ((xj - wij * yi) * yi)) Wi x) W y

/-- The closed set of learning rules the notebook passes to `Layer(learning=...)`. -/
inductive Rule
  | hebb
  | decay
  | ojas
deriving DecidableEq

/-- Dispatch of a `Rule` to its update function. -/
def applyRule {α : Type} [Field α] : Rule → Mat α → Vec α → Vec α → α → Mat α
  | .hebb => r_hebb
  | .decay => r_decay
  | .ojas => r_ojas

/-- First index of a maximal entry (`np.argmax` on a rank-1 array): ties are
broken toward the lowest index. -/
def argmaxIdx {α : Type} [LinearOrder α] : List α → ℕ
  | [] => 0
  | x :: xs =>
    match xs.get? (argmaxIdx xs) with
    | none => 0
    | some m => if x < m then argmaxIdx xs + 1 else 0

/-- `asDigits(labels)`: one-hot label rows to digits via row-wise `np.argmax`. -/
def asDigits {α : Type} [LinearOrder α] (labels : Mat α) : List ℕ :=
  labels.map argmaxIdx

/-- Errors of the embedded operations: Python `assert` failures on mismatched
data shapes, the failed `assert` on `decayAfter` in `Layer.train`,
`ZeroDivisionError` raised by `(i + 1) % idxDec` when `idxDec = 0`, and
`IndexError` from an out-of-range sample index. -/
inductive RunErr
  | shapeMismatch
  | invalidDecay
  | zeroModulo
  | indexError
deriving DecidableEq

/-- Result of `runTest`: the fraction of correct predictions and
`np.where(comp == False)`, the indices predicted wrongly. -/
structure TestResult where
  correct : ℚ
  indexWrong : List ℕ
deriving DecidableEq

/-- Prediction for one sample inside `runTest`: the raw output vector comes
from `network.compute`; if its entries sum to exactly zero the row of the
float array `preds` is set to `None`, which numpy stores as NaN — modelled
as `none`.  Otherwise the prediction is `np.argmax(softmax(predvec))`;
`softmax` is strictly monotone, so the embedding takes `argmaxIdx predvec`
directly — the theorem `argmaxIdx_softmax_cast` below proves this agrees
with the source's `argmax ∘ softmax` composition over the reals. -/
def predictOf (compute : Vec ℚ → Vec ℚ) (x : Vec ℚ) : Option ℕ :=
  let predvec := compute x
  if predvec.sum = 0 then none else some (argmaxIdx predvec)

/-- The `preds` array built by the loop of `runTest`. -/
def predsOf (compute : Vec ℚ → Vec ℚ) (X : Mat ℚ) : List (Option ℕ) :=
  X.map (predictOf compute)

/-- One entry of the comparison `comp = preds == y`: a NaN prediction
(`none`) compares unequal to every digit. -/
def predMatches (p : Option ℕ) (d : ℕ) : Bool := p == some d

/-- `runTest(X, y, network, convertedy)`: assert equal sample counts, turn
the labels into digits (unless pre-digitized labels are supplied), predict
every sample, and return `sum(comp.astype(int)) / y.shape[0]` together with
`np.where(comp == False)`.  The network is abstracted by its `compute`
method. -/
def runTest (X y : Mat ℚ) (compute : Vec ℚ → Vec ℚ) (convertedy : Option (List ℕ)) :
    Except RunErr TestResult :=
  if X.length ≠ y.length then .error .shapeMismatch
  else
    let digits := match convertedy with
      | none => asDigits y
      | some c => c
    let preds := predsOf compute X
    let comp := List.zipWith predMatches preds digits
    let correct := (comp.map (fun b => if b then (1 : ℚ) else 0)).sum / (digits.length : ℚ)
    let indexWrong := (comp.enum.filter (fun p => !p.2)).map Prod.fst
    .ok { correct := correct, indexWrong := indexWrong }

/-- Zero weight matrix of shape `(nNeurons, nInputs)`: the `random=False`
branch of `Layer.__init__`. -/
def zeroWeights {α : Type} [Field α] (nInputs nNeurons : ℕ) : Mat α :=
  List.replicate nNeurons (List.replicate nInputs 0)

/-- Weight allocation of `Layer.__init__` with `random=False`, with the
dimensions as integers.  `np.zeros((nNeurons, nInputs))` raises `ValueError`
on a negative dimension and silently accepts zero; `Layer.__init__` itself
contains no validation of `nInputs` or `nNeurons` whatsoever. -/
def layerInitZeros (nInputs nNeurons : ℤ) : Option (Mat ℚ) :=
  if nInputs < 0 ∨ nNeurons < 0 then none
  else some (List.replicate nNeurons.toNat (List.replicate nInputs.toNat 0))

/-- `getWeights`: the accessor returning the layer's weight object. -/
def getWeights {α : Type} (weights : Mat α) : Mat α := weights

/-- The state of the sample loop of `Layer.train`: the layer's weight matrix
(`self.weights`, mutated in place by `self.learn`), the local learning rate
`eta`, and a pending exception.  Once an exception is pending the weights
keep the mutations applied before it was raised, exactly as the Python
`Layer` object does when `train` raises. -/
structure LoopState where
  weights : Mat ℚ
  eta : ℚ
  err : Option RunErr
deriving DecidableEq

/-- One iteration of `for i, idx in enumerate(permutation)` in `Layer.train`
(`p = (i, idx)`): fetch the sample (an out-of-range index raises
`IndexError` before `learn` runs), call `self.learn(Xt[idx], yt[idx], eta)`,
then evaluate `(i + 1) % idxDec` — which raises `ZeroDivisionError` when
`idxDec = 0`, after the learn call has already mutated the weights — and
multiply `eta` by `decay` on a zero remainder.  A pending exception skips
the iteration. -/
def sampleStep (learnFn : Mat ℚ → Vec ℚ → Vec ℚ → ℚ → Mat ℚ) (Xt yt : Mat ℚ)
    (idxDec : ℕ) (decay : ℚ) (s : LoopState) (p : ℕ × ℕ) : LoopState :=
  if s.err.isSome then s
  else
    match Xt.get? p.2, yt.get? p.2 with
    | some x, some y =>
      let W := learnFn s.weights x y s.eta
      if idxDec = 0 then { weights := W, eta := s.eta, err := some .zeroModulo }
      else if (p.1 + 1) % idxDec = 0 then { weights := W, eta := s.eta * decay, err := none }
      else { weights := W, eta := s.eta, err := none }
    | _, _ => { s with err := some .indexError }

/-- The state of `Layer.train` across epochs: the loop state plus the
validation-accuracy history `hist`, the visitation order of every epoch so
far (instrumentation recording each epoch's `permutation` value), and the
state of the shared random generator. -/
structure TrainState (σ : Type) where
  loop : LoopState
  hist : List ℚ
  perms : List (List ℕ)
  rng : σ

/-- One epoch of `Layer.train`: draw the visitation order (a fresh
`np.random.permutation(Xt.shape[0])` when `permute`, else
`list(range(Xt.shape[0]))`), run the sample loop, then compute the
validation accuracy with `runTest`, append it to the history and apply the
end-of-epoch `eta *= decay`.  After an exception nothing further runs. -/
def epochStep {σ : Type} (drawPerm : σ → ℕ → List ℕ × σ)
    (learnFn : Mat ℚ → Vec ℚ → Vec ℚ → ℚ → Mat ℚ) (aF : Vec ℚ → Vec ℚ)
    (Xt yt Xval yval : Mat ℚ) (permute : Bool) (idxDec : ℕ) (decay : ℚ)
    (s : TrainState σ) : TrainState σ :=
  if s.loop.err.isSome then s
  else
    let drawn := if permute then drawPerm s.rng Xt.length else (List.range Xt.length, s.rng)
    let s' := drawn.1.enum.foldl (sampleStep learnFn Xt yt idxDec decay) s.loop
    if s'.err.isSome then
      { loop := s', hist := s.hist, perms := s.perms ++ [drawn.1], rng := drawn.2 }
    else
      match runTest Xval yval (fun x => aF (matVec s'.weights x)) none with
      | .ok r =>
        { loop := { weights := s'.weights, eta := s'.eta * decay, err := none },
          hist := s.hist ++ [r.correct], perms := s.perms ++ [drawn.1], rng := drawn.2 }
      | .error e =>
        { loop := { weights := s'.weights, eta := s'.eta, err := some e },
          hist := s.hist, perms := s.perms ++ [drawn.1], rng := drawn.2 }

/-- What `Layer.train` leaves behind: the layer's weights and the history it
returns, plus the final learning rate, the visitation orders used, the
generator state and the pending exception, if any. -/
structure TrainResult (σ : Type) where
  weights : Mat ℚ
  eta : ℚ
  hist : List ℚ
  perms : List (List ℕ)
  rng : σ
  err : Option RunErr

/-- The epoch loop of `Layer.train` after the asserts have passed and
`idxDec` has been computed. -/
def trainLoop {σ : Type} (drawPerm : σ → ℕ → List ℕ × σ)
    (learnFn : Mat ℚ → Vec ℚ → Vec ℚ → ℚ → Mat ℚ) (aF : Vec ℚ → Vec ℚ)
    (Xt yt Xval yval : Mat ℚ) (permute : Bool) (idxDec : ℕ) (decay : ℚ)
    (epochs : ℕ) (s : TrainState σ) : TrainState σ :=
  (List.range epochs).foldl
    (fun s _ => epochStep drawPerm learnFn aF Xt yt Xval yval permute idxDec decay s) s

/-- `Layer.train(Xt, yt, X_val, y_val, epochs, eta, permute, verbose, decay,
decayAfter)`.  The layer's learning step (`self.learn`, fixed at
construction time by the layer's rule and `normalize` flag) and its
activation function are the parameters `learnFn` and `aF`; the shared
random generator is threaded as a state.  The three `assert`s run first, in
source order; then `idxDec = int(Xt.shape[0] * decayAfter)` — the operand
is nonnegative once the `decayAfter` assert has passed, so Python's
truncating `int` is floor — and then the epoch loop. -/
def train {σ : Type} (drawPerm : σ → ℕ → List ℕ × σ)
    (learnFn : Mat ℚ → Vec ℚ → Vec ℚ → ℚ → Mat ℚ) (aF : Vec ℚ → Vec ℚ)
    (Xt yt Xval yval : Mat ℚ) (epochs : ℕ) (eta : ℚ) (permute : Bool)
    (decay decayAfter : ℚ) (W0 : Mat ℚ) (rng : σ) : TrainResult σ :=
  if Xt.length ≠ yt.length then ⟨W0, eta, [], [], rng, some .shapeMismatch⟩
  else if Xval.length ≠ yval.length then ⟨W0, eta, [], [], rng, some .shapeMismatch⟩
  else if ¬(decayAfter ≤ 1 ∧ 0 < decayAfter) then ⟨W0, eta, [], [], rng, some .invalidDecay⟩
  else
    let idxDec := (⌊(Xt.length : ℚ) * decayAfter⌋).toNat
    let final := trainLoop drawPerm learnFn aF Xt yt Xval yval permute idxDec decay epochs
      { loop := { weights := W0, eta := eta, err := none }, hist := [], perms := [], rng := rng }
    ⟨final.loop.weights, final.loop.eta, final.hist, final.perms, final.rng, final.loop.err⟩

/-- One run of the loop body of `trainNewNetworksAndTest`: three fresh
zero-initialized layers (`hebb`, `deca` and `ojas` — the Oja layer is
constructed with `normalize=True`, so the three layers have different
`learn` steps, abstracted here as three arbitrary functions), each trained
with `np.random.seed(run)` executed immediately before its `train` call —
modelled by starting each call from the generator state `seedFn run`. -/
def runThree {σ : Type} (drawPerm : σ → ℕ → List ℕ × σ) (seedFn : ℕ → σ) (run : ℕ)
    (learnHebb learnDeca learnOjas : Mat ℚ → Vec ℚ → Vec ℚ → ℚ → Mat ℚ)
    (aF : Vec ℚ → Vec ℚ) (Xtrain ytrain Xval yval : Mat ℚ)
    (nInput nOutput epochs : ℕ) (eta : ℚ) (permute : Bool) (decay decayAfter : ℚ) :
    TrainResult σ × TrainResult σ × TrainResult σ :=
  (train drawPerm learnHebb aF Xtrain ytrain Xval yval epochs eta permute decay decayAfter
     (zeroWeights nInput nOutput) (seedFn run),
   train drawPerm learnDeca aF Xtrain ytrain Xval yval epochs eta permute decay decayAfter
     (zeroWeights nInput nOutput) (seedFn run),
   train drawPerm learnOjas aF Xtrain ytrain Xval yval epochs eta permute decay decayAfter
     (zeroWeights nInput nOutput) (seedFn run))

/-- Sum of squared entries of a row: `np.linalg.norm(r)` squared. -/
def sqNorm (r : List ℝ) : ℝ := (r.map (fun e => e * e)).sum

/-- Row L2 norm, `np.linalg.norm` of a single row. -/
noncomputable def l2norm (r : List ℝ) : ℝ := Real.sqrt (sqNorm r)

/-- `normalizeRows(x) = x / np.linalg.norm(x, axis=1)[:, None]`.  Over the
reals a row of norm zero is the all-zero row, so each of its entries maps
to `0 / 0` — NaN in numpy, which `Layer.learn` immediately forces to `0`;
Lean's `0 / 0 = 0` convention produces that forced value directly, and a
nonzero entry over a zero divisor (numpy infinity, which would survive the
NaN-zeroing) cannot arise. -/
noncomputable def normalizeRows (x : Mat ℝ) : Mat ℝ :=
  x.map (fun r => r.map (fun e => e / l2norm r))

/-- `Layer.learn(x, y, eta)`: apply the layer's rule to the weights, then,
when the layer was built with `normalize=True`, row-normalize them and
zero the NaN entries left by originally-zero rows. -/
noncomputable def learn (normalize : Bool) (rule : Rule) (W : Mat ℝ) (x y : Vec ℝ) (eta : ℝ) :
    Mat ℝ :=
  let W := applyRule rule W x y eta
  if normalize then normalizeRows W else W

/-- A finite sequence of `learn` calls folded over the layer's weights;
each element of `calls` carries one call's `(x, y, eta)` arguments. -/
noncomputable def learnSeq (normalize : Bool) (rule : Rule) (calls : List (Vec ℝ × Vec ℝ × ℝ))
    (W : Mat ℝ) : Mat ℝ :=
  calls.foldl (fun W c => learn normalize rule W c.1 c.2.1 c.2.2) W

/-- Weight allocation of `Layer.__init__` over the reals: with
`random=True` the uniform draw (an arbitrary matrix supplied by the
external generator, of the shape numpy guarantees) is row-normalized; with
`random=False` the weights start at zero. -/
noncomputable def layerInit (random : Bool) (draw : Mat ℝ) (nInputs nNeurons : ℕ) : Mat ℝ :=
  if random then normalizeRows draw else zeroWeights nInputs nNeurons

/-- A matrix has shape `(m, n)`: `m` rows, each of length `n`. -/
def HasShape {α : Type} (W : Mat α) (m n : ℕ) : Prop :=
  W.length = m ∧ ∀ r ∈ W, r.length = n

/-- The learning-rate schedule of the sample loop in isolation: the decay
applications depend on the position counter `i` alone, never on the
samples.  `steps` is the list of position counters of the processed
samples, in order. -/
def etaSched (idxDec : ℕ) (decay : ℚ) (steps : List ℕ) (eta : ℚ) : ℚ :=
  steps.foldl (fun e i => if (i + 1) % idxDec = 0 then e * decay else e) eta

/-- Largest entry of a nonempty rank-1 array (`np.max`; numpy raises on an
empty array, which the sources never feed it). -/
def npMax : List ℝ → ℝ
  | [] => 0
  | x :: xs => xs.foldl max x

/-- `softmax(x)`: subtract the maximum (`xrel = x - np.max(x)`, the
exploding-Hebb-values guard), exponentiate, and divide by the sum
`np.sum(np.exp(xrel), axis=0)`. -/
noncomputable def softmax (x : List ℝ) : List ℝ :=
  let expd := x.map (fun t => Real.exp (t - npMax x))
  expd.map (fun e => e / expd.sum)

/-! ### List utilities -/

/-- Membership in a binary `zipWith` comes from members of the two lists. -/
theorem mem_zipWith {α β γ : Type} {f : α → β → γ} {l₁ : List α} {l₂ : List β} {c : γ}
    (h : c ∈ List.zipWith f l₁ l₂) : ∃ a ∈ l₁, ∃ b ∈ l₂, c = f a b := by
  induction l₁ generalizing l₂ with
  | nil => simp at h
  | cons a t ih =>
    cases l₂ with
    | nil => simp at h
    | cons b u =>
      rcases List.mem_cons.1 h with h | h
      · exact ⟨a, by simp, b, by simp, h⟩
      · rcases ih h with ⟨a', ha', b', hb', rfl⟩
        exact ⟨a', by simp [ha'], b', by simp [hb'], rfl⟩

/-- Three-way right-commutativity of elementwise vector addition; the
truncating semantics of `zipWith` preserves it even for ragged lengths. -/
theorem zipWith_add_right_comm {α : Type} [AddCommMonoid α] (l u v : List α) :
    List.zipWith (fun a b => a + b) (List.zipWith (fun a b => a + b) l u) v =
      List.zipWith (fun a b => a + b) (List.zipWith (fun a b => a + b) l v) u := by
  induction l generalizing u v with
  | nil => simp
  | cons a t ih =>
    cases u with
    | nil => simp
    | cons b w =>
      cases v with
      | nil => simp
      | cons c z => simp [ih, add_right_comm]

/-- Right-commutativity of `matAdd` in its second argument. -/
theorem matAdd_right_comm {α : Type} [Field α] (W U V : Mat α) :
    matAdd (matAdd W U) V = matAdd (matAdd W V) U := by
  unfold matAdd
  induction W generalizing U V with
  | nil => simp
  | cons r t ih =>
    cases U with
    | nil => simp
    | cons ru tu =>
      cases V with
      | nil => simp
      | cons rv tv => simp [ih, zipWith_add_right_comm]

/-- Two consecutive Hebbian updates commute: the update added to the
weights does not depend on the current weights. -/
theorem r_hebb_right_comm {α : Type} [Field α] (W : Mat α) (x₁ y₁ x₂ y₂ : Vec α) (eta : α) :
    r_hebb (r_hebb W x₁ y₁ eta) x₂ y₂ eta = r_hebb (r_hebb W x₂ y₂ eta) x₁ y₁ eta := by
  unfold r_hebb
  exact matAdd_right_comm W (smulMat eta (outer y₁ x₁)) (smulMat eta (outer y₂ x₂))

/-- A dot product against an all-zero row is zero. -/
theorem dotVec_replicate_zero {α : Type} [Field α] (k : ℕ) (x : Vec α) :
    dotVec (List.replicate k 0) x = 0 := by
  induction k generalizing x with
  | zero => simp [dotVec]
  | succ n ih =>
    cases x with
    | nil => simp [dotVec]
    | cons a t =>
      simp only [List.replicate_succ, dotVec, List.zipWith_cons_cons, List.sum_cons, zero_mul,
        zero_add]
      exact ih t

/-- A zero-weight layer computes the all-zero output vector on every input. -/
theorem matVec_zeroWeights {α : Type} [Field α] (nI nN : ℕ) (x : Vec α) :
    matVec (zeroWeights nI nN) x = List.replicate nN 0 := by
  unfold matVec zeroWeights
  rw [List.map_replicate, dotVec_replicate_zero]

/-! ### Error propagation through the training loop -/

/-- A pending exception short-circuits one sample step. -/
theorem sampleStep_of_err {f : Mat ℚ → Vec ℚ → Vec ℚ → ℚ → Mat ℚ} {Xt yt : Mat ℚ}
    {idxDec : ℕ} {decay : ℚ} {s : LoopState} (h : s.err.isSome) (p : ℕ × ℕ) :
    sampleStep f Xt yt idxDec decay s p = s := by
  simp [sampleStep, h]

/-- A pending exception short-circuits the whole sample loop. -/
theorem foldl_sampleStep_of_err {f : Mat ℚ → Vec ℚ → Vec ℚ → ℚ → Mat ℚ} {Xt yt : Mat ℚ}
    {idxDec : ℕ} {decay : ℚ} {s : LoopState} (h : s.err.isSome) (l : List (ℕ × ℕ)) :
    l.foldl (sampleStep f Xt yt idxDec decay) s = s := by
  induction l with
  | nil => rfl
  | cons p t ih => rw [List.foldl_cons, sampleStep_of_err h p, ih]

/-- A pending exception short-circuits an epoch. -/
theorem epochStep_of_err {σ : Type} {drawPerm : σ → ℕ → List ℕ × σ}
    {f : Mat ℚ → Vec ℚ → Vec ℚ → ℚ → Mat ℚ} {aF : Vec ℚ → Vec ℚ} {Xt yt Xval yval : Mat ℚ}
    {permute : Bool} {idxDec : ℕ} {decay : ℚ} {s : TrainState σ} (h : s.loop.err.isSome) :
    epochStep drawPerm f aF Xt yt Xval yval permute idxDec decay s = s := by
  simp [epochStep, h]

/-- A pending exception short-circuits all remaining epochs. -/
theorem trainLoop_of_err {σ : Type} {drawPerm : σ → ℕ → List ℕ × σ}
    {f : Mat ℚ → Vec ℚ → Vec ℚ → ℚ → Mat ℚ} {aF : Vec ℚ → Vec ℚ} {Xt yt Xval yval : Mat ℚ}
    {permute : Bool} {idxDec : ℕ} {decay : ℚ} {s : TrainState σ} (h : s.loop.err.isSome)
    (epochs : ℕ) :
    trainLoop drawPerm f aF Xt yt Xval yval permute idxDec decay epochs s = s := by
  unfold trainLoop
  induction epochs with
  | zero => rfl
  | succ n ih =>
    rw [List.range_succ, List.foldl_append, ih, List.foldl_cons, List.foldl_nil,
      epochStep_of_err h]

/-- `runTest` succeeds exactly when the sample counts agree; the asserts in
`Layer.train` have already checked them when the epoch loop calls it. -/
theorem runTest_isOk {X y : Mat ℚ} (c : Vec ℚ → Vec ℚ) (conv : Option (List ℕ))
    (h : X.length = y.length) : ∃ r, runTest X y c conv = .ok r := by
  rw [runTest.eq_def, if_neg (by simp [h])]
  exact ⟨_, rfl⟩

/-- Unfolding `etaSched` one step at a time. -/
theorem etaSched_cons (idxDec : ℕ) (decay : ℚ) (k : ℕ) (L : List ℕ) (eta : ℚ) :
    etaSched idxDec decay (k :: L) eta =
      etaSched idxDec decay L (if (k + 1) % idxDec = 0 then eta * decay else eta) := rfl

/-- The sample loop over in-range indices raises nothing, and its learning
rate is the pure schedule `etaSched` of the position counters — the samples
and the learning step never influence it. -/
theorem foldl_sampleStep_eta {f : Mat ℚ → Vec ℚ → Vec ℚ → ℚ → Mat ℚ} {Xt yt : Mat ℚ}
    {idxDec : ℕ} {decay : ℚ} (hlen : Xt.length = yt.length) (hd : idxDec ≠ 0) :
    ∀ (P : List ℕ) (k : ℕ) (s : LoopState), s.err = none → (∀ i ∈ P, i < Xt.length) →
      ((List.enumFrom k P).foldl (sampleStep f Xt yt idxDec decay) s).err = none ∧
        ((List.enumFrom k P).foldl (sampleStep f Xt yt idxDec decay) s).eta =
          etaSched idxDec decay (List.range' k P.length) s.eta := by
  intro P
  induction P with
  | nil => intro k s hs _; exact ⟨hs, rfl⟩
  | cons i t ih =>
    intro k s hs hP
    have hi : i < Xt.length := hP i (by simp)
    obtain ⟨x, hx⟩ : ∃ x, Xt[i]? = some x := ⟨_, List.getElem?_eq_getElem hi⟩
    obtain ⟨y, hy⟩ : ∃ y, yt[i]? = some y :=
      ⟨_, List.getElem?_eq_getElem (show i < yt.length by omega)⟩
    have hstep : sampleStep f Xt yt idxDec decay s (k, i) =
        { weights := f s.weights x y s.eta,
          eta := if (k + 1) % idxDec = 0 then s.eta * decay else s.eta, err := none } := by
      by_cases htrig : (k + 1) % idxDec = 0 <;>
        simp [sampleStep, hs, hx, hy, hd, htrig]
    rw [List.enumFrom_cons, List.foldl_cons, hstep, List.length_cons, List.range'_succ,
      etaSched_cons]
    exact ih (k + 1) _ rfl (fun j hj => hP j (by simp [hj]))

/-- With `decay = 1` (the default of `Layer.train`) the sample loop over
in-range indices is the plain fold of the learning step at a constant
learning rate. -/
theorem foldl_sampleStep_decay_one {f : Mat ℚ → Vec ℚ → Vec ℚ → ℚ → Mat ℚ} {Xt yt : Mat ℚ}
    {idxDec : ℕ} (hlen : Xt.length = yt.length) (hd : idxDec ≠ 0) :
    ∀ (P : List ℕ) (k : ℕ) (s : LoopState), s.err = none → (∀ i ∈ P, i < Xt.length) →
      (List.enumFrom k P).foldl (sampleStep f Xt yt idxDec 1) s =
        { weights := P.foldl (fun W i => f W (Xt.getD i []) (yt.getD i []) s.eta) s.weights,
          eta := s.eta, err := none } := by
  intro P
  induction P with
  | nil =>
    intro k s hs _
    cases s with
    | mk w e err => cases hs; rfl
  | cons i t ih =>
    intro k s hs hP
    have hi : i < Xt.length := hP i (by simp)
    obtain ⟨x, hx⟩ : ∃ x, Xt[i]? = some x := ⟨_, List.getElem?_eq_getElem hi⟩
    obtain ⟨y, hy⟩ : ∃ y, yt[i]? = some y :=
      ⟨_, List.getElem?_eq_getElem (show i < yt.length by omega)⟩
    have hgx : Xt.getD i [] = x := by simp [List.getD_eq_getElem?_getD, hx]
    have hgy : yt.getD i [] = y := by simp [List.getD_eq_getElem?_getD, hy]
    have hstep : sampleStep f Xt yt idxDec 1 s (k, i) =
        { weights := f s.weights x y s.eta, eta := s.eta, err := none } := by
      by_cases htrig : (k + 1) % idxDec = 0 <;>
        simp [sampleStep, hs, hx, hy, hd, htrig]
    rw [List.enumFrom_cons, List.foldl_cons, hstep, List.foldl_cons, hgx, hgy]
    exact ih (k + 1) _ rfl (fun j hj => hP j (by simp [hj]))

/-- Once the three asserts of `Layer.train` pass, the result is the epoch
loop started on the initial weights with the computed `idxDec`. -/
theorem train_eq_loop {σ : Type} {drawPerm : σ → ℕ → List ℕ × σ}
    {f : Mat ℚ → Vec ℚ → Vec ℚ → ℚ → Mat ℚ} {aF : Vec ℚ → Vec ℚ} {Xt yt Xval yval : Mat ℚ}
    {epochs : ℕ} {eta : ℚ} {permute : Bool} {decay decayAfter : ℚ} {W0 : Mat ℚ} {rng : σ}
    (h1 : Xt.length = yt.length) (h2 : Xval.length = yval.length)
    (h3 : decayAfter ≤ 1 ∧ 0 < decayAfter) :
    train drawPerm f aF Xt yt Xval yval epochs eta permute decay decayAfter W0 rng =
      (fun final => ⟨final.loop.weights, final.loop.eta, final.hist, final.perms, final.rng,
          final.loop.err⟩)
        (trainLoop drawPerm f aF Xt yt Xval yval permute
          ((⌊(Xt.length : ℚ) * decayAfter⌋).toNat) decay epochs
          { loop := { weights := W0, eta := eta, err := none },
            hist := [], perms := [], rng := rng }) := by
  rw [train.eq_def]
  simp [h1, h2, h3]

/-- One error-free epoch with a positive `idxDec` and in-range visitation
order: no exception, the learning rate follows `etaSched` compounded with
the end-of-epoch decay, one history entry is appended, and the epoch's
visitation order is recorded. -/
theorem epochStep_eta {σ : Type} {drawPerm : σ → ℕ → List ℕ × σ}
    {f : Mat ℚ → Vec ℚ → Vec ℚ → ℚ → Mat ℚ} {aF : Vec ℚ → Vec ℚ} {Xt yt Xval yval : Mat ℚ}
    {permute : Bool} {idxDec : ℕ} {decay : ℚ} {s : TrainState σ} {drawn : List ℕ × σ}
    (hdraw : (if permute then drawPerm s.rng Xt.length else (List.range Xt.length, s.rng))
      = drawn)
    (hs : s.loop.err = none) (hlen : Xt.length = yt.length) (hval : Xval.length = yval.length)
    (hd : idxDec ≠ 0) (hP : ∀ i ∈ drawn.1, i < Xt.length) :
    ∃ W c, epochStep drawPerm f aF Xt yt Xval yval permute idxDec decay s =
      ⟨⟨W, etaSched idxDec decay (List.range' 0 drawn.1.length) s.loop.eta * decay, none⟩,
        s.hist ++ [c], s.perms ++ [drawn.1], drawn.2⟩ := by
  have hfold := @foldl_sampleStep_eta f Xt yt idxDec decay hlen hd drawn.1 0 s.loop hs hP
  obtain ⟨r, hr⟩ := runTest_isOk
    (fun x => aF (matVec ((List.enumFrom 0 drawn.1).foldl
      (sampleStep f Xt yt idxDec decay) s.loop).weights x)) none hval
  refine ⟨((List.enumFrom 0 drawn.1).foldl (sampleStep f Xt yt idxDec decay) s.loop).weights,
    r.correct, ?_⟩
  rw [epochStep.eq_def]
  simp only [hs, Option.isSome_none, Bool.false_eq_true, if_false, hdraw]
  have henum : drawn.1.enum = List.enumFrom 0 drawn.1 := rfl
  rw [henum]
  simp only [hfold.1, Option.isSome_none, Bool.false_eq_true, if_false, hr, hfold.2]

/-- Claim C6: calling `Layer.train` with `decayAfter` outside `(0, 1]` (for
instance `0` or `1.5`) fails on the `decayAfter` assert before any learning
step executes: the error is the configuration error, the weights are the
untouched initial weights, the returned history is empty and no visitation
order was drawn. -/
theorem train_invalid_decayAfter {σ : Type} (drawPerm : σ → ℕ → List ℕ × σ)
    (f : Mat ℚ → Vec ℚ → Vec ℚ → ℚ → Mat ℚ) (aF : Vec ℚ → Vec ℚ)
    (Xt yt Xval yval : Mat ℚ) (epochs : ℕ) (eta : ℚ) (permute : Bool)
    (decay decayAfter : ℚ) (W0 : Mat ℚ) (rng : σ)
    (hXy : Xt.length = yt.length) (hval : Xval.length = yval.length)
    (hbad : ¬(0 < decayAfter ∧ decayAfter ≤ 1)) :
    (train drawPerm f aF Xt yt Xval yval epochs eta permute decay decayAfter W0 rng).err
        = some .invalidDecay ∧
      (train drawPerm f aF Xt yt Xval yval epochs eta permute decay decayAfter W0 rng).weights
        = W0 ∧
      (train drawPerm f aF Xt yt Xval yval epochs eta permute decay decayAfter W0 rng).hist
        = [] ∧
      (train drawPerm f aF Xt yt Xval yval epochs eta permute decay decayAfter W0 rng).perms
        = [] := by
  have hbad' : ¬(decayAfter ≤ 1 ∧ 0 < decayAfter) := fun h => hbad ⟨h.2, h.1⟩
  rw [train.eq_def]
  simp [hXy, hval, hbad']

/-- Witness for `train_invalid_decayAfter` at `decayAfter = 0` on a
one-sample dataset. -/
theorem train_invalid_decayAfter_witness :
    (([[(1 : ℚ)]] : Mat ℚ).length = ([[(1 : ℚ)]] : Mat ℚ).length ∧
        ([] : Mat ℚ).length = ([] : Mat ℚ).length ∧
        ¬((0 : ℚ) < 0 ∧ (0 : ℚ) ≤ 1)) ∧
      (train (fun (s : Unit) (_ : ℕ) => (([] : List ℕ), s)) (fun W _ _ _ => W) (fun v => v)
          [[(1 : ℚ)]] [[(1 : ℚ)]] [] [] 1 1 false 1 0 [[(0 : ℚ)]] ()).err
          = some .invalidDecay ∧
        (train (fun (s : Unit) (_ : ℕ) => (([] : List ℕ), s)) (fun W _ _ _ => W) (fun v => v)
          [[(1 : ℚ)]] [[(1 : ℚ)]] [] [] 1 1 false 1 0 [[(0 : ℚ)]] ()).weights = [[(0 : ℚ)]] ∧
        (train (fun (s : Unit) (_ : ℕ) => (([] : List ℕ), s)) (fun W _ _ _ => W) (fun v => v)
          [[(1 : ℚ)]] [[(1 : ℚ)]] [] [] 1 1 false 1 0 [[(0 : ℚ)]] ()).hist = [] ∧
        (train (fun (s : Unit) (_ : ℕ) => (([] : List ℕ), s)) (fun W _ _ _ => W) (fun v => v)
          [[(1 : ℚ)]] [[(1 : ℚ)]] [] [] 1 1 false 1 0 [[(0 : ℚ)]] ()).perms = [] :=
  ⟨⟨rfl, rfl, by norm_num⟩,
    train_invalid_decayAfter (fun (s : Unit) (_ : ℕ) => (([] : List ℕ), s)) (fun W _ _ _ => W)
      (fun v => v) [[(1 : ℚ)]] [[(1 : ℚ)]] [] [] 1 1 false 1 0 [[(0 : ℚ)]] () rfl rfl
      (by norm_num)⟩

/-- Evaluation of the in-epoch learning-rate schedule for ten samples with
`idxDec = 5` and `decay = 1/2`: the zero remainders occur at positions
`i + 1 = 5` and `i + 1 = 10`, so the rate halves twice. -/
theorem etaSched_ten : etaSched 5 (1/2) (List.range' 0 10) 1 = 1/4 := by
  have h : List.range' 0 10 = [0, 1, 2, 3, 4, 5, 6, 7, 8, 9] := rfl
  rw [h]
  norm_num [etaSched, List.foldl_cons, List.foldl_nil]

/-- The learning rate left by `Layer.train` on a ten-sample training set
with one epoch, `eta = 1`, `decay = 1/2`, `decayAfter = 1/2`: `idxDec = 5`,
the in-epoch triggers at samples 5 and 10 each halve `eta`, and the
end-of-epoch decay halves it once more, giving `1/8` — independently of
the samples, the learning step and the validation data. -/
theorem train_eta_ten {σ : Type} (drawPerm : σ → ℕ → List ℕ × σ)
    (f : Mat ℚ → Vec ℚ → Vec ℚ → ℚ → Mat ℚ) (aF : Vec ℚ → Vec ℚ)
    (Xt yt Xval yval : Mat ℚ) (W0 : Mat ℚ) (rng : σ)
    (hXt : Xt.length = 10) (hyt : yt.length = 10) (hval : Xval.length = yval.length) :
    (train drawPerm f aF Xt yt Xval yval 1 1 false (1/2) (1/2) W0 rng).eta = 1/8 ∧
      (train drawPerm f aF Xt yt Xval yval 1 1 false (1/2) (1/2) W0 rng).err = none := by
  rw [train_eq_loop (by omega) hval (by norm_num)]
  have hidx : ((⌊(Xt.length : ℚ) * (1/2)⌋).toNat) = 5 := by
    rw [hXt]
    have h5 : ⌊((10 : ℕ) : ℚ) * (1/2)⌋ = 5 := by norm_num
    rw [h5]
    rfl
  rw [hidx]
  have hone : List.range 1 = [0] := rfl
  rw [trainLoop, hone, List.foldl_cons, List.foldl_nil]
  have hdraw : (if false = true
        then drawPerm (TrainState.mk ⟨W0, 1, none⟩ [] [] rng).rng Xt.length
        else (List.range Xt.length, (TrainState.mk ⟨W0, 1, none⟩ [] [] rng).rng))
      = (List.range 10, rng) := by
    rw [hXt]
    simp
  obtain ⟨W, c, heq⟩ := @epochStep_eta σ drawPerm f aF Xt yt Xval yval false 5 (1/2)
    ⟨⟨W0, 1, none⟩, [], [], rng⟩ (List.range 10, rng) hdraw rfl (by omega) hval (by norm_num)
    (fun i hi => by rw [hXt]; exact List.mem_range.1 hi)
  rw [heq]
  refine ⟨?_, rfl⟩
  show etaSched 5 (1/2) (List.range' 0 (List.range 10).length) 1 * (1/2) = 1/8
  rw [List.length_range, etaSched_ten]
  norm_num

/-- Claim C1 (counterexample): on a concrete ten-sample training set with
`decayAfter = 1/2`, `decay = 1/2`, initial `eta = 1` and one epoch, the
learning rate after the epoch is not `1/4`: the in-epoch decay fires at
sample 10 as well (10 is a multiple of `idxDec = 5`), and the end-of-epoch
decay compounds, leaving `1/8`. -/
theorem decay_schedule_counterexample :
    ¬ ((train (fun (s : Unit) (_ : ℕ) => (([] : List ℕ), s)) (applyRule Rule.hebb)
        (fun v => v) (List.replicate 10 [(1 : ℚ)]) (List.replicate 10 [(1 : ℚ)])
        [[(1 : ℚ)]] [[(1 : ℚ)]] 1 1 false (1/2) (1/2) [[(0 : ℚ)]] ()).eta = 1/4) := by
  have h := train_eta_ten (fun (s : Unit) (_ : ℕ) => (([] : List ℕ), s)) (applyRule Rule.hebb)
    (fun v => v) (List.replicate 10 [(1 : ℚ)]) (List.replicate 10 [(1 : ℚ)])
    [[(1 : ℚ)]] [[(1 : ℚ)]] [[(0 : ℚ)]] () (by simp) (by simp) rfl
  rw [h.1]
  norm_num

/-- Claim C1 (amended): with `decayAfter = 1/2`, `decay = 1/2`, initial
`eta = 1`, ten training samples and one epoch, the learning rate in effect
after the epoch completes equals `1/8`: `idxDec = int(10 * 0.5) = 5`
triggers the in-epoch decay at samples 5 and 10 (both multiples of 5), and
the unconditional end-of-epoch decay compounds on top. -/
theorem decay_schedule_ten_samples {σ : Type} (drawPerm : σ → ℕ → List ℕ × σ)
    (f : Mat ℚ → Vec ℚ → Vec ℚ → ℚ → Mat ℚ) (aF : Vec ℚ → Vec ℚ)
    (Xt yt Xval yval : Mat ℚ) (W0 : Mat ℚ) (rng : σ)
    (hXt : Xt.length = 10) (hyt : yt.length = 10) (hval : Xval.length = yval.length) :
    (train drawPerm f aF Xt yt Xval yval 1 1 false (1/2) (1/2) W0 rng).eta = 1/8 :=
  (train_eta_ten drawPerm f aF Xt yt Xval yval W0 rng hXt hyt hval).1

/-- Witness for `decay_schedule_ten_samples` on a concrete dataset. -/
theorem decay_schedule_ten_samples_witness :
    ((List.replicate 10 [(1 : ℚ)]).length = 10 ∧ (List.replicate 10 [(1 : ℚ)]).length = 10 ∧
        ([[(1 : ℚ)]] : Mat ℚ).length = ([[(1 : ℚ)]] : Mat ℚ).length) ∧
      (train (fun (s : Unit) (_ : ℕ) => (([] : List ℕ), s)) (applyRule Rule.decay)
        (fun v => v) (List.replicate 10 [(1 : ℚ)]) (List.replicate 10 [(1 : ℚ)])
        [[(1 : ℚ)]] [[(1 : ℚ)]] 1 1 false (1/2) (1/2) [[(0 : ℚ)]] ()).eta = 1/8 :=
  ⟨⟨by simp, by simp, rfl⟩,
    decay_schedule_ten_samples (fun (s : Unit) (_ : ℕ) => (([] : List ℕ), s))
      (applyRule Rule.decay) (fun v => v) (List.replicate 10 [(1 : ℚ)])
      (List.replicate 10 [(1 : ℚ)]) [[(1 : ℚ)]] [[(1 : ℚ)]] [[(0 : ℚ)]] ()
      (by simp) (by simp) rfl⟩

/-- A pending exception short-circuits any remaining epoch iterations. -/
theorem foldl_epochStep_of_err {σ : Type} {drawPerm : σ → ℕ → List ℕ × σ}
    {f : Mat ℚ → Vec ℚ → Vec ℚ → ℚ → Mat ℚ} {aF : Vec ℚ → Vec ℚ} {Xt yt Xval yval : Mat ℚ}
    {permute : Bool} {idxDec : ℕ} {decay : ℚ} {s : TrainState σ} (h : s.loop.err.isSome)
    (l : List ℕ) :
    l.foldl (fun s _ => epochStep drawPerm f aF Xt yt Xval yval permute idxDec decay s) s = s := by
  induction l with
  | nil => rfl
  | cons e t ih => rw [List.foldl_cons, epochStep_of_err h, ih]

/-- An epoch entered with `idxDec = 0` (possible for any spec-valid
`decayAfter` small enough that `int(n * decayAfter) = 0`) performs exactly
one learning step on the first visited sample and then dies on
`(i + 1) % idxDec`: the weights keep that first mutation. -/
theorem epochStep_idxDec_zero {σ : Type} {drawPerm : σ → ℕ → List ℕ × σ}
    {f : Mat ℚ → Vec ℚ → Vec ℚ → ℚ → Mat ℚ} {aF : Vec ℚ → Vec ℚ}
    {x0 : Vec ℚ} {Xr : Mat ℚ} {y0 : Vec ℚ} {yr : Mat ℚ} {Xval yval : Mat ℚ} {decay : ℚ}
    {s : TrainState σ} (hs : s.loop.err = none) :
    epochStep drawPerm f aF (x0 :: Xr) (y0 :: yr) Xval yval false 0 decay s =
      ⟨⟨f s.loop.weights x0 y0 s.loop.eta, s.loop.eta, some .zeroModulo⟩,
        s.hist, s.perms ++ [List.range (x0 :: Xr).length], s.rng⟩ := by
  have hstep : sampleStep f (x0 :: Xr) (y0 :: yr) 0 decay s.loop (0, 0) =
      ⟨f s.loop.weights x0 y0 s.loop.eta, s.loop.eta, some .zeroModulo⟩ := by
    simp [sampleStep, hs]
  have henum : (List.range (x0 :: Xr).length).enum
      = (0, 0) :: List.enumFrom 1 (List.map Nat.succ (List.range Xr.length)) := by
    rw [List.length_cons, List.range_succ_eq_map, List.enum_cons]
  rw [epochStep.eq_def]
  simp only [hs, Option.isSome_none, Bool.false_eq_true, if_false, henum, List.foldl_cons,
    hstep]
  rw [foldl_sampleStep_of_err (by simp)]
  simp

/-- Claim C10: `Layer.train` on ten samples with the spec-valid
`decayAfter = 1/20` passes the configuration assert, computes
`idxDec = int(10 * 0.05) = 0`, performs the first `learn` call of the first
epoch (mutating the weights), and then raises `ZeroDivisionError` at
`(i + 1) % idxDec` inside the sample loop — not before training starts.
The error is `zeroModulo` (so the `decayAfter` assert did not fire), the
weights carry exactly the first learning step, and no history entry was
produced. -/
theorem train_modulo_zero_mid_loop {σ : Type} (drawPerm : σ → ℕ → List ℕ × σ)
    (f : Mat ℚ → Vec ℚ → Vec ℚ → ℚ → Mat ℚ) (aF : Vec ℚ → Vec ℚ)
    (x0 y0 : Vec ℚ) (Xr yr Xval yval : Mat ℚ) (epochs : ℕ) (eta decay : ℚ)
    (W0 : Mat ℚ) (rng : σ)
    (hX : (x0 :: Xr).length = 10) (hy : (y0 :: yr).length = 10)
    (hval : Xval.length = yval.length) (hep : 0 < epochs) :
    (train drawPerm f aF (x0 :: Xr) (y0 :: yr) Xval yval epochs eta false decay (1/20)
          W0 rng).err = some .zeroModulo ∧
      (train drawPerm f aF (x0 :: Xr) (y0 :: yr) Xval yval epochs eta false decay (1/20)
          W0 rng).weights = f W0 x0 y0 eta ∧
      (train drawPerm f aF (x0 :: Xr) (y0 :: yr) Xval yval epochs eta false decay (1/20)
          W0 rng).hist = [] := by
  rw [train_eq_loop (by omega) hval (by norm_num)]
  have hidx : ((⌊((x0 :: Xr).length : ℚ) * (1/20)⌋).toNat) = 0 := by
    rw [hX]
    have h0 : ⌊((10 : ℕ) : ℚ) * (1/20)⌋ = 0 := by norm_num
    rw [h0]
    rfl
  rw [hidx]
  cases epochs with
  | zero => omega
  | succ e =>
    rw [trainLoop, List.range_succ_eq_map, List.foldl_cons, epochStep_idxDec_zero rfl,
      foldl_epochStep_of_err (by simp)]
    exact ⟨rfl, rfl, rfl⟩

/-- Witness for `train_modulo_zero_mid_loop` on a concrete dataset. -/
theorem train_modulo_zero_mid_loop_witness :
    ((([(1 : ℚ)]) :: List.replicate 9 [(1 : ℚ)]).length = 10 ∧
        (([(1 : ℚ)]) :: List.replicate 9 [(1 : ℚ)]).length = 10 ∧
        ([[(1 : ℚ)]] : Mat ℚ).length = ([[(1 : ℚ)]] : Mat ℚ).length ∧ 0 < 1) ∧
      (train (fun (s : Unit) (_ : ℕ) => (([] : List ℕ), s)) (applyRule Rule.ojas)
          (fun v => v) (([(1 : ℚ)]) :: List.replicate 9 [(1 : ℚ)])
          (([(1 : ℚ)]) :: List.replicate 9 [(1 : ℚ)]) [[(1 : ℚ)]] [[(1 : ℚ)]] 1 1 false 1 (1/20)
          [[(0 : ℚ)]] ()).err = some .zeroModulo ∧
        (train (fun (s : Unit) (_ : ℕ) => (([] : List ℕ), s)) (applyRule Rule.ojas)
          (fun v => v) (([(1 : ℚ)]) :: List.replicate 9 [(1 : ℚ)])
          (([(1 : ℚ)]) :: List.replicate 9 [(1 : ℚ)]) [[(1 : ℚ)]] [[(1 : ℚ)]] 1 1 false 1 (1/20)
          [[(0 : ℚ)]] ()).weights = applyRule Rule.ojas [[(0 : ℚ)]] [(1 : ℚ)] [(1 : ℚ)] 1 ∧
        (train (fun (s : Unit) (_ : ℕ) => (([] : List ℕ), s)) (applyRule Rule.ojas)
          (fun v => v) (([(1 : ℚ)]) :: List.replicate 9 [(1 : ℚ)])
          (([(1 : ℚ)]) :: List.replicate 9 [(1 : ℚ)]) [[(1 : ℚ)]] [[(1 : ℚ)]] 1 1 false 1 (1/20)
          [[(0 : ℚ)]] ()).hist = [] :=
  ⟨⟨by simp, by simp, rfl, Nat.one_pos⟩,
    train_modulo_zero_mid_loop (fun (s : Unit) (_ : ℕ) => (([] : List ℕ), s))
      (applyRule Rule.ojas) (fun v => v) [(1 : ℚ)] [(1 : ℚ)]
      (List.replicate 9 [(1 : ℚ)]) (List.replicate 9 [(1 : ℚ)]) [[(1 : ℚ)]] [[(1 : ℚ)]]
      1 1 1 [[(0 : ℚ)]] () (by simp) (by simp) rfl Nat.one_pos⟩

/-- One error-free epoch with `decay = 1` (the default) and an in-range
visitation order is the plain fold of the learning step over that order at
the epoch's starting learning rate. -/
theorem epochStep_decay_one {σ : Type} {drawPerm : σ → ℕ → List ℕ × σ}
    {f : Mat ℚ → Vec ℚ → Vec ℚ → ℚ → Mat ℚ} {aF : Vec ℚ → Vec ℚ} {Xt yt Xval yval : Mat ℚ}
    {permute : Bool} {idxDec : ℕ} {s : TrainState σ} {drawn : List ℕ × σ}
    (hdraw : (if permute then drawPerm s.rng Xt.length else (List.range Xt.length, s.rng))
      = drawn)
    (hs : s.loop.err = none) (hlen : Xt.length = yt.length) (hval : Xval.length = yval.length)
    (hd : idxDec ≠ 0) (hP : ∀ i ∈ drawn.1, i < Xt.length) :
    ∃ c, epochStep drawPerm f aF Xt yt Xval yval permute idxDec 1 s =
      ⟨⟨drawn.1.foldl (fun W i => f W (Xt.getD i []) (yt.getD i []) s.loop.eta) s.loop.weights,
          s.loop.eta * 1, none⟩,
        s.hist ++ [c], s.perms ++ [drawn.1], drawn.2⟩ := by
  have hfold := @foldl_sampleStep_decay_one f Xt yt idxDec hlen hd drawn.1 0 s.loop hs hP
  obtain ⟨r, hr⟩ := runTest_isOk
    (fun x => aF (matVec ((List.enumFrom 0 drawn.1).foldl
      (sampleStep f Xt yt idxDec 1) s.loop).weights x)) none hval
  rw [hfold] at hr
  refine ⟨r.correct, ?_⟩
  rw [epochStep.eq_def]
  simp only [hs, Option.isSome_none, Bool.false_eq_true, if_false, hdraw]
  have henum : drawn.1.enum = List.enumFrom 0 drawn.1 := rfl
  rw [henum]
  simp only [hfold, Option.isSome_none, Bool.false_eq_true, if_false, hr]

/-- Claim C3: a plain-Hebbian layer initialized at zero weights and trained
for one epoch (with the `Layer.train` defaults `decay = 1`,
`decayAfter = 1`) ends with the same weights under a visitation order `A`
as under any permutation `B` of it: the Hebbian update adds a term that
does not depend on the current weights, and matrix addition commutes over
exact arithmetic. -/
theorem hebbian_order_invariance (Xt yt Xval yval : Mat ℚ) (aF : Vec ℚ → Vec ℚ)
    (A B : List ℕ) (eta : ℚ) (nI nN : ℕ)
    (hlen : Xt.length = yt.length) (hval : Xval.length = yval.length)
    (hA : A.Perm (List.range Xt.length)) (hB : B.Perm (List.range Xt.length)) :
    (train (fun s _ => (A, s)) (applyRule Rule.hebb) aF Xt yt Xval yval 1 eta true 1 1
        (zeroWeights nI nN) ()).weights =
      (train (fun s _ => (B, s)) (applyRule Rule.hebb) aF Xt yt Xval yval 1 eta true 1 1
        (zeroWeights nI nN) ()).weights := by
  rw [train_eq_loop hlen hval ⟨le_refl 1, one_pos⟩,
    train_eq_loop hlen hval ⟨le_refl 1, one_pos⟩]
  have hidx : ((⌊(Xt.length : ℚ) * 1⌋).toNat) = Xt.length := by
    rw [mul_one, Int.floor_natCast, Int.toNat_natCast]
  rw [hidx]
  rcases Nat.eq_zero_or_pos Xt.length with hn | hn
  · rw [hn] at hA hB
    rw [hA.eq_nil, hB.eq_nil]
  · have hd : Xt.length ≠ 0 := by omega
    have hone : List.range 1 = [0] := rfl
    rw [trainLoop, trainLoop, hone, List.foldl_cons, List.foldl_nil, List.foldl_cons,
      List.foldl_nil]
    obtain ⟨cA, hEA⟩ := @epochStep_decay_one Unit (fun s _ => (A, s)) (applyRule Rule.hebb) aF
      Xt yt Xval yval true Xt.length ⟨⟨zeroWeights nI nN, eta, none⟩, [], [], ()⟩ (A, ())
      (by simp) rfl hlen hval hd (fun i hi => List.mem_range.1 (hA.mem_iff.1 hi))
    obtain ⟨cB, hEB⟩ := @epochStep_decay_one Unit (fun s _ => (B, s)) (applyRule Rule.hebb) aF
      Xt yt Xval yval true Xt.length ⟨⟨zeroWeights nI nN, eta, none⟩, [], [], ()⟩ (B, ())
      (by simp) rfl hlen hval hd (fun i hi => List.mem_range.1 (hB.mem_iff.1 hi))
    rw [hEA, hEB]
    exact (hA.trans hB.symm).foldl_eq'
      (fun i _ j _ W => r_hebb_right_comm W (Xt.getD i []) (yt.getD i [])
        (Xt.getD j []) (yt.getD j []) eta) (zeroWeights nI nN)

/-- Witness for `hebbian_order_invariance` on a concrete two-sample set. -/
theorem hebbian_order_invariance_witness :
    (([[(1 : ℚ)], [(2 : ℚ)]] : Mat ℚ).length = ([[(1 : ℚ)], [(0 : ℚ)]] : Mat ℚ).length ∧
        ([[(1 : ℚ)]] : Mat ℚ).length = ([[(1 : ℚ)]] : Mat ℚ).length ∧
        ([0, 1] : List ℕ).Perm (List.range ([[(1 : ℚ)], [(2 : ℚ)]] : Mat ℚ).length) ∧
        ([1, 0] : List ℕ).Perm (List.range ([[(1 : ℚ)], [(2 : ℚ)]] : Mat ℚ).length)) ∧
      (train (fun s _ => (([0, 1] : List ℕ), s)) (applyRule Rule.hebb) (fun v => v)
          [[(1 : ℚ)], [(2 : ℚ)]] [[(1 : ℚ)], [(0 : ℚ)]] [[(1 : ℚ)]] [[(1 : ℚ)]] 1 1 true 1 1
          (zeroWeights 1 1) ()).weights =
        (train (fun s _ => (([1, 0] : List ℕ), s)) (applyRule Rule.hebb) (fun v => v)
          [[(1 : ℚ)], [(2 : ℚ)]] [[(1 : ℚ)], [(0 : ℚ)]] [[(1 : ℚ)]] [[(1 : ℚ)]] 1 1 true 1 1
          (zeroWeights 1 1) ()).weights :=
  ⟨⟨rfl, rfl, by decide, by decide⟩,
    hebbian_order_invariance [[(1 : ℚ)], [(2 : ℚ)]] [[(1 : ℚ)], [(0 : ℚ)]] [[(1 : ℚ)]]
      [[(1 : ℚ)]] (fun v => v) [0, 1] [1, 0] 1 1 1 rfl rfl (by decide) (by decide)⟩

/-- `runTest` fails exactly on mismatched sample counts, with the shape
assert. -/
theorem runTest_err {X y : Mat ℚ} (c : Vec ℚ → Vec ℚ) (conv : Option (List ℕ))
    (h : ¬X.length = y.length) : runTest X y c conv = .error .shapeMismatch := by
  rw [runTest.eq_def, if_pos h]

/-- Whether a sample step raises, and what it raises, depends only on the
index and `idxDec` — never on the learning step or the current weights. -/
theorem sampleStep_err_congr {f g : Mat ℚ → Vec ℚ → Vec ℚ → ℚ → Mat ℚ} {Xt yt : Mat ℚ}
    {idxDec : ℕ} {decay : ℚ} {s t : LoopState} (h : s.err = t.err) (p : ℕ × ℕ) :
    (sampleStep f Xt yt idxDec decay s p).err = (sampleStep g Xt yt idxDec decay t p).err := by
  by_cases herr : s.err.isSome
  · rw [sampleStep_of_err herr, sampleStep_of_err (h ▸ herr)]
    exact h
  · have hs : s.err = none := Option.not_isSome_iff_eq_none.1 herr
    have ht : t.err = none := h ▸ hs
    cases hx : Xt.get? p.2 <;> cases hy : yt.get? p.2
    all_goals simp only [sampleStep, hs, ht, Option.isSome_none, Bool.false_eq_true, if_false,
      hx, hy]
    all_goals first
    | rfl
    | (split_ifs <;> rfl)

/-- The error status of the whole sample loop is independent of the
learning step and the weights. -/
theorem foldl_sampleStep_err_congr {f g : Mat ℚ → Vec ℚ → Vec ℚ → ℚ → Mat ℚ} {Xt yt : Mat ℚ}
    {idxDec : ℕ} {decay : ℚ} :
    ∀ (l : List (ℕ × ℕ)) {s t : LoopState}, s.err = t.err →
      (l.foldl (sampleStep f Xt yt idxDec decay) s).err
        = (l.foldl (sampleStep g Xt yt idxDec decay) t).err := by
  intro l
  induction l with
  | nil => intro s t h; exact h
  | cons p u ih =>
    intro s t h
    rw [List.foldl_cons, List.foldl_cons]
    exact ih (sampleStep_err_congr h p)

/-- One epoch driven by two different learning steps from states that agree
on error status, recorded visitation orders and generator state leaves
states that again agree on all three: the drawn permutation, the raised
errors and the generator consumption never depend on the learning step. -/
theorem epochStep_congr {σ : Type} {drawPerm : σ → ℕ → List ℕ × σ}
    {f g : Mat ℚ → Vec ℚ → Vec ℚ → ℚ → Mat ℚ} {aF : Vec ℚ → Vec ℚ} {Xt yt Xval yval : Mat ℚ}
    {permute : Bool} {idxDec : ℕ} {decay : ℚ} {s t : TrainState σ}
    (herr : s.loop.err = t.loop.err) (hperms : s.perms = t.perms) (hrng : s.rng = t.rng) :
    (epochStep drawPerm f aF Xt yt Xval yval permute idxDec decay s).loop.err
        = (epochStep drawPerm g aF Xt yt Xval yval permute idxDec decay t).loop.err ∧
      (epochStep drawPerm f aF Xt yt Xval yval permute idxDec decay s).perms
        = (epochStep drawPerm g aF Xt yt Xval yval permute idxDec decay t).perms ∧
      (epochStep drawPerm f aF Xt yt Xval yval permute idxDec decay s).rng
        = (epochStep drawPerm g aF Xt yt Xval yval permute idxDec decay t).rng := by
  by_cases hsome : s.loop.err.isSome
  · rw [epochStep_of_err hsome, epochStep_of_err (herr ▸ hsome)]
    exact ⟨herr, hperms, hrng⟩
  · have hs : s.loop.err = none := Option.not_isSome_iff_eq_none.1 hsome
    have ht : t.loop.err = none := herr ▸ hs
    rw [epochStep.eq_def, epochStep.eq_def, hrng, hperms]
    set d := if permute = true then drawPerm t.rng Xt.length
      else (List.range Xt.length, t.rng) with hdd
    simp only [hs, ht, Option.isSome_none, Bool.false_eq_true, if_false]
    set Ff := d.1.enum.foldl (sampleStep f Xt yt idxDec decay) s.loop with hFf
    set Fg := d.1.enum.foldl (sampleStep g Xt yt idxDec decay) t.loop with hFg
    have hfold : Ff.err = Fg.err :=
      @foldl_sampleStep_err_congr f g Xt yt idxDec decay d.1.enum s.loop t.loop
        (hs.trans ht.symm)
    by_cases hse : Fg.err.isSome
    · have hsf : Ff.err.isSome := by rw [hfold]; exact hse
      rw [if_pos hsf, if_pos hse]
      exact ⟨hfold, rfl, rfl⟩
    · have hsf : ¬Ff.err.isSome = true := by rw [hfold]; exact hse
      rw [if_neg hsf, if_neg hse]
      by_cases hv : Xval.length = yval.length
      · obtain ⟨r₁, hr₁⟩ := runTest_isOk (fun x => aF (matVec Ff.weights x)) none hv
        obtain ⟨r₂, hr₂⟩ := runTest_isOk (fun x => aF (matVec Fg.weights x)) none hv
        rw [hr₁, hr₂]
        exact ⟨rfl, rfl, rfl⟩
      · rw [runTest_err _ none hv, runTest_err _ none hv]
        exact ⟨rfl, rfl, rfl⟩

/-- The agreement of `epochStep_congr` is preserved across any sequence of
epoch iterations. -/
theorem foldl_epochStep_congr {σ : Type} {drawPerm : σ → ℕ → List ℕ × σ}
    {f g : Mat ℚ → Vec ℚ → Vec ℚ → ℚ → Mat ℚ} {aF : Vec ℚ → Vec ℚ} {Xt yt Xval yval : Mat ℚ}
    {permute : Bool} {idxDec : ℕ} {decay : ℚ} :
    ∀ (l : List ℕ) {s t : TrainState σ},
      s.loop.err = t.loop.err → s.perms = t.perms → s.rng = t.rng →
      (l.foldl (fun s _ => epochStep drawPerm f aF Xt yt Xval yval permute idxDec decay s)
          s).loop.err
          = (l.foldl (fun s _ => epochStep drawPerm g aF Xt yt Xval yval permute idxDec decay s)
            t).loop.err ∧
        (l.foldl (fun s _ => epochStep drawPerm f aF Xt yt Xval yval permute idxDec decay s)
          s).perms
          = (l.foldl (fun s _ => epochStep drawPerm g aF Xt yt Xval yval permute idxDec decay s)
            t).perms ∧
        (l.foldl (fun s _ => epochStep drawPerm f aF Xt yt Xval yval permute idxDec decay s)
          s).rng
          = (l.foldl (fun s _ => epochStep drawPerm g aF Xt yt Xval yval permute idxDec decay s)
            t).rng := by
  intro l
  induction l with
  | nil => intro s t h1 h2 h3; exact ⟨h1, h2, h3⟩
  | cons e u ih =>
    intro s t h1 h2 h3
    rw [List.foldl_cons, List.foldl_cons]
    obtain ⟨k1, k2, k3⟩ := @epochStep_congr σ drawPerm f g aF Xt yt Xval yval permute idxDec
      decay s t h1 h2 h3
    exact ih k1 k2 k3

/-- Two `Layer.train` calls that start from the same generator state use
identical per-epoch visitation orders, whatever their learning steps and
initial weights are. -/
theorem train_perms_congr {σ : Type} (drawPerm : σ → ℕ → List ℕ × σ)
    (f g : Mat ℚ → Vec ℚ → Vec ℚ → ℚ → Mat ℚ) (aF : Vec ℚ → Vec ℚ)
    (Xt yt Xval yval : Mat ℚ) (epochs : ℕ) (eta : ℚ) (permute : Bool)
    (decay decayAfter : ℚ) (W0 W0' : Mat ℚ) (rng : σ) :
    (train drawPerm f aF Xt yt Xval yval epochs eta permute decay decayAfter W0 rng).perms
      = (train drawPerm g aF Xt yt Xval yval epochs eta permute decay decayAfter W0' rng).perms
    := by
  rw [train.eq_def, train.eq_def]
  by_cases h1 : Xt.length ≠ yt.length
  · simp [h1]
  · by_cases h2 : Xval.length ≠ yval.length
    · simp [h1, h2]
    · by_cases h3 : ¬(decayAfter ≤ 1 ∧ 0 < decayAfter)
      · simp [h1, h2, h3]
      · simp only [h1, h2, h3, if_false]
        unfold trainLoop
        exact (@foldl_epochStep_congr σ drawPerm f g aF Xt yt Xval yval permute
          ((⌊(Xt.length : ℚ) * decayAfter⌋).toNat) decay (List.range epochs)
          ⟨⟨W0, eta, none⟩, [], [], rng⟩ ⟨⟨W0', eta, none⟩, [], [], rng⟩ rfl rfl rfl).2.1

/-- Claim C8: inside one run of `trainNewNetworksAndTest` the generator is
reseeded with the run index immediately before each of the three `train`
calls, so the `hebb`, `deca` and `ojas` layers all start from the state
`seedFn run` and visit the training samples in identical per-epoch orders,
whatever the three learning steps do to their weights. -/
theorem runThree_same_orders {σ : Type} (drawPerm : σ → ℕ → List ℕ × σ) (seedFn : ℕ → σ)
    (run : ℕ) (learnHebb learnDeca learnOjas : Mat ℚ → Vec ℚ → Vec ℚ → ℚ → Mat ℚ)
    (aF : Vec ℚ → Vec ℚ) (Xtrain ytrain Xval yval : Mat ℚ) (nInput nOutput epochs : ℕ)
    (eta : ℚ) (permute : Bool) (decay decayAfter : ℚ) :
    (runThree drawPerm seedFn run learnHebb learnDeca learnOjas aF Xtrain ytrain Xval yval
        nInput nOutput epochs eta permute decay decayAfter).1.perms
        = (runThree drawPerm seedFn run learnHebb learnDeca learnOjas aF Xtrain ytrain Xval yval
          nInput nOutput epochs eta permute decay decayAfter).2.1.perms ∧
      (runThree drawPerm seedFn run learnHebb learnDeca learnOjas aF Xtrain ytrain Xval yval
        nInput nOutput epochs eta permute decay decayAfter).2.1.perms
        = (runThree drawPerm seedFn run learnHebb learnDeca learnOjas aF Xtrain ytrain Xval yval
          nInput nOutput epochs eta permute decay decayAfter).2.2.perms :=
  ⟨train_perms_congr drawPerm learnHebb learnDeca aF Xtrain ytrain Xval yval epochs eta permute
      decay decayAfter (zeroWeights nInput nOutput) (zeroWeights nInput nOutput) (seedFn run),
    train_perms_congr drawPerm learnDeca learnOjas aF Xtrain ytrain Xval yval epochs eta permute
      decay decayAfter (zeroWeights nInput nOutput) (zeroWeights nInput nOutput) (seedFn run)⟩

/-! ### Evaluation of `runTest` -/

/-- Comparing the NaN row of `preds` against an all-digit label list gives
`False` everywhere. -/
theorem zipWith_predMatches_none :
    ∀ (ds : List ℕ) (n : ℕ), n = ds.length →
      List.zipWith predMatches (List.replicate n none) ds = List.replicate n false := by
  intro ds
  induction ds with
  | nil => intro n hn; rw [hn]; rfl
  | cons d t ih =>
    intro n hn
    rw [hn, List.length_cons, List.replicate_succ, List.replicate_succ, List.zipWith_cons_cons,
      ih t.length rfl]
    rfl

/-- `np.where` over an all-`False` comparison returns every index. -/
theorem filter_enumFrom_replicate_false :
    ∀ (n k : ℕ),
      ((List.enumFrom k (List.replicate n false)).filter (fun p => !p.2)).map Prod.fst
        = List.range' k n := by
  intro n
  induction n with
  | zero => intro k; rfl
  | succ m ih =>
    intro k
    rw [List.replicate_succ, List.enumFrom_cons, List.filter_cons, List.range'_succ]
    simp only [Bool.not_false, if_true, List.map_cons, ih (k + 1)]

/-- An index at which the comparison list holds `false` appears in
`np.where(comp == False)`. -/
theorem mem_filter_enumFrom_of_false :
    ∀ (l : List Bool) (k i : ℕ), l.get? i = some false →
      (k + i) ∈ ((List.enumFrom k l).filter (fun p => !p.2)).map Prod.fst := by
  intro l
  induction l with
  | nil => intro k i h; simp at h
  | cons b t ih =>
    intro k i h
    cases i with
    | zero =>
      simp only [List.get?] at h
      cases h
      simp [List.enumFrom_cons, List.filter_cons]
    | succ j =>
      simp only [List.get?] at h
      have := ih (k + 1) j h
      rw [List.enumFrom_cons, List.filter_cons]
      have harith : k + (j + 1) = (k + 1) + j := by omega
      by_cases hb : b = false
      · subst hb
        simp only [Bool.not_false, if_true, List.map_cons]
        exact List.mem_cons_of_mem _ (harith ▸ this)
      · have hb' : b = true := by cases b <;> simp_all
        subst hb'
        simp only [Bool.not_true, Bool.false_eq_true, if_false]
        exact harith ▸ this

/-- Entries of a `zipWith` along both lists. -/
theorem get?_zipWith {α β γ : Type} {f : α → β → γ} :
    ∀ {l₁ : List α} {l₂ : List β} {i : ℕ} {a : α} {b : β},
      l₁.get? i = some a → l₂.get? i = some b →
      (List.zipWith f l₁ l₂).get? i = some (f a b) := by
  intro l₁
  induction l₁ with
  | nil => intro l₂ i a b h; simp at h
  | cons x t ih =>
    intro l₂ i a b h₁ h₂
    cases l₂ with
    | nil => simp at h₂
    | cons y u =>
      cases i with
      | zero =>
        simp only [List.get?] at h₁ h₂
        cases h₁
        cases h₂
        rfl
      | succ j =>
        simp only [List.get?] at h₁ h₂
        simpa [List.zipWith_cons_cons] using ih h₁ h₂

/-- Claim C2: evaluating a layer whose weight matrix is all zeros (with the
default identity activation) on any nonempty labeled dataset yields
accuracy `0` and a misclassified set containing every sample index, and
every prediction is the undefined sentinel `none` — never class `0`. -/
theorem runTest_allzero_weights (nI nN : ℕ) (X y : Mat ℚ)
    (hlen : X.length = y.length) (_hne : 0 < X.length) :
    runTest X y (fun x => matVec (zeroWeights nI nN) x) none
        = .ok ⟨0, List.range X.length⟩ ∧
      ∀ p ∈ predsOf (fun x => matVec (zeroWeights nI nN) x) X, p = none := by
  have hpred : predsOf (fun x => matVec (zeroWeights nI nN) x) X
      = List.replicate X.length none := by
    rw [List.eq_replicate_iff]
    refine ⟨List.length_map X _, ?_⟩
    intro b hb
    obtain ⟨x, _, rfl⟩ := List.mem_map.1 hb
    simp [predictOf, matVec_zeroWeights, List.sum_replicate]
  have hdig : (asDigits y).length = y.length := List.length_map y _
  have hcomp : List.zipWith predMatches (List.replicate X.length none) (asDigits y)
      = List.replicate X.length false :=
    zipWith_predMatches_none (asDigits y) X.length (by omega)
  constructor
  · rw [runTest.eq_def, if_neg (by simp [hlen])]
    simp only [hpred, hcomp, List.map_replicate]
    have hsum : (List.replicate X.length (if false = true then (1 : ℚ) else 0)).sum = 0 := by
      rw [List.sum_replicate]
      simp
    rw [hsum]
    have hwrong : ((List.replicate X.length false).enum.filter (fun p => !p.2)).map Prod.fst
        = List.range X.length := by
      have : (List.replicate X.length false).enum
          = List.enumFrom 0 (List.replicate X.length false) := rfl
      rw [this, filter_enumFrom_replicate_false, List.range_eq_range']
    rw [hwrong]
    simp
  · intro p hp
    rw [hpred] at hp
    exact (List.mem_replicate.1 hp).2

/-- Witness for `runTest_allzero_weights` on a one-sample dataset. -/
theorem runTest_allzero_weights_witness :
    (([[(1 : ℚ)]] : Mat ℚ).length = ([[(1 : ℚ)]] : Mat ℚ).length ∧
        0 < ([[(1 : ℚ)]] : Mat ℚ).length) ∧
      (runTest [[(1 : ℚ)]] [[(1 : ℚ)]] (fun x => matVec (zeroWeights 1 1) x) none
          = .ok ⟨0, List.range ([[(1 : ℚ)]] : Mat ℚ).length⟩ ∧
        ∀ p ∈ predsOf (fun x => matVec (zeroWeights 1 1) x) [[(1 : ℚ)]], p = none) :=
  ⟨⟨rfl, by decide⟩,
    runTest_allzero_weights 1 1 [[(1 : ℚ)]] [[(1 : ℚ)]] rfl (by decide)⟩

/-- Claim C9: any sample whose raw output vector sums to exactly zero — all
zero or not — is recorded as the undefined sentinel, lands in the
misclassified index set, and the sentinel compares unequal to every digit
label. -/
theorem runTest_sumzero_undefined (X y : Mat ℚ) (compute : Vec ℚ → Vec ℚ)
    (i : ℕ) (x : Vec ℚ) (hlen : X.length = y.length)
    (hx : X.get? i = some x) (hsum : (compute x).sum = 0) :
    (predsOf compute X).get? i = some none ∧
      (∃ r, runTest X y compute none = .ok r ∧ i ∈ r.indexWrong) ∧
      ∀ d : ℕ, predMatches none d = false := by
  have hiX : i < X.length := (List.get?_eq_some.1 hx).1
  have hpi : (predsOf compute X).get? i = some none := by
    unfold predsOf
    rw [List.get?_eq_getElem?, List.getElem?_map]
    rw [List.get?_eq_getElem?] at hx
    rw [hx]
    simp [predictOf, hsum]
  refine ⟨hpi, ?_, fun d => rfl⟩
  obtain ⟨d, hd⟩ : ∃ d, (asDigits y).get? i = some d := by
    have : i < (asDigits y).length := by
      simp only [asDigits, List.length_map]
      omega
    rw [List.get?_eq_getElem?]
    exact ⟨_, List.getElem?_eq_getElem this⟩
  have hcompi : (List.zipWith predMatches (predsOf compute X) (asDigits y)).get? i
      = some false := by
    rw [get?_zipWith hpi hd]
    rfl
  refine ⟨_, by rw [runTest.eq_def, if_neg (by simp [hlen])], ?_⟩
  have := mem_filter_enumFrom_of_false
    (List.zipWith predMatches (predsOf compute X) (asDigits y)) 0 i hcompi
  simpa using this

/-- Witness for `runTest_sumzero_undefined`: the output vector `[1, -1, 0]`
is not all-zero and has the unique maximum at index `0`, yet its zero sum
makes the prediction undefined. -/
theorem runTest_sumzero_undefined_witness :
    (([[(1 : ℚ)]] : Mat ℚ).length = ([[(1 : ℚ), (0 : ℚ), (0 : ℚ)]] : Mat ℚ).length ∧
        ([[(1 : ℚ)]] : Mat ℚ).get? 0 = some [(1 : ℚ)] ∧
        ((fun v => matVec [[(1 : ℚ)], [(-1 : ℚ)], [(0 : ℚ)]] v) [(1 : ℚ)]).sum = 0) ∧
      ((predsOf (fun v => matVec [[(1 : ℚ)], [(-1 : ℚ)], [(0 : ℚ)]] v) [[(1 : ℚ)]]).get? 0
          = some none ∧
        (∃ r, runTest [[(1 : ℚ)]] [[(1 : ℚ), (0 : ℚ), (0 : ℚ)]]
            (fun v => matVec [[(1 : ℚ)], [(-1 : ℚ)], [(0 : ℚ)]] v) none = .ok r ∧
          0 ∈ r.indexWrong) ∧
        ∀ d : ℕ, predMatches none d = false) :=
  ⟨⟨rfl, rfl, by norm_num [matVec, dotVec]⟩,
    runTest_sumzero_undefined [[(1 : ℚ)]] [[(1 : ℚ), (0 : ℚ), (0 : ℚ)]]
      (fun v => matVec [[(1 : ℚ)], [(-1 : ℚ)], [(0 : ℚ)]] v) 0 [(1 : ℚ)] rfl rfl
      (by norm_num [matVec, dotVec])⟩

/-! ### Layer construction -/

/-- Claim C7 (counterexample): constructing a `Layer` with `nInputs = 0` — a
non-positive dimension — succeeds silently instead of being detected as a
configuration error: `np.zeros((3, 0))` simply allocates an empty weight
matrix. -/
theorem layer_init_nonpositive_counterexample :
    (0 : ℤ) ≤ 0 ∧ layerInitZeros 0 3 ≠ none := by
  refine ⟨le_refl 0, ?_⟩
  rw [layerInitZeros, if_neg (by omega)]
  exact Option.some_ne_none _

/-- Claim C7 (amended): `Layer.__init__` performs no `InvalidConfiguration`
check at all; weight allocation fails exactly for negative `nInputs` or
`nNeurons` (numpy's array constructor rejects negative dimensions), while
zero dimensions are accepted without error and produce an empty weight
matrix. -/
theorem layer_init_no_validation (nI nN : ℤ) :
    layerInitZeros nI nN = none ↔ nI < 0 ∨ nN < 0 := by
  rw [layerInitZeros]
  split_ifs with h
  · simp [h]
  · simp [h]

/-! ### Row normalization over the reals -/

/-- The squared norm of a row is nonnegative. -/
theorem sqNorm_nonneg (r : List ℝ) : 0 ≤ sqNorm r := by
  refine List.sum_nonneg ?_
  intro z hz
  obtain ⟨e, _, rfl⟩ := List.mem_map.1 hz
  exact mul_self_nonneg e

/-- A list of nonnegative reals summing to zero is all zeros. -/
theorem sum_nonneg_all_zero :
    ∀ (l : List ℝ), (∀ x ∈ l, 0 ≤ x) → l.sum = 0 → ∀ x ∈ l, x = 0 := by
  intro l
  induction l with
  | nil => simp
  | cons a t ih =>
    intro h hs x hx
    simp only [List.sum_cons] at hs
    have ha := h a (by simp)
    have ht : (0 : ℝ) ≤ t.sum := List.sum_nonneg (fun z hz => h z (List.mem_cons_of_mem _ hz))
    have ha0 : a = 0 := by linarith
    rcases List.mem_cons.1 hx with rfl | hx
    · exact ha0
    · exact ih (fun z hz => h z (List.mem_cons_of_mem _ hz)) (by linarith) x hx

/-- A row with squared norm zero is the all-zero row. -/
theorem sqNorm_eq_zero {r : List ℝ} (h : sqNorm r = 0) : ∀ e ∈ r, e = 0 := by
  intro e he
  have := sum_nonneg_all_zero (r.map (fun e => e * e))
    (fun z hz => by obtain ⟨w, _, rfl⟩ := List.mem_map.1 hz; exact mul_self_nonneg w) h
    (e * e) (List.mem_map.2 ⟨e, he, rfl⟩)
  exact mul_self_eq_zero.1 this

/-- Dividing a sum through by a constant. -/
theorem list_sum_div (l : List ℝ) (c : ℝ) : (l.map (fun z => z / c)).sum = l.sum / c := by
  induction l with
  | nil => simp
  | cons a t ih => simp [ih, add_div]

/-- The squared norm of a row divided entrywise by a constant. -/
theorem sqNorm_map_div (r : List ℝ) (c : ℝ) :
    sqNorm (r.map (fun e => e / c)) = sqNorm r / (c * c) := by
  unfold sqNorm
  rw [List.map_map, ← list_sum_div]
  congr 1
  rw [List.map_map]
  refine List.map_congr_left ?_
  intro e _
  simp [Function.comp, div_mul_div_comm]

/-- Claim C4: after every `learn` call on a layer built with
`normalize=True` (the Oja configuration), each row of the weight matrix
either has L2 norm exactly `1` or is the all-zero row — the row that a
zero update row leaves behind after its NaN entries are forced to zero. -/
theorem oja_row_norm (rule : Rule) (W : Mat ℝ) (x y : Vec ℝ) (eta : ℝ) :
    ∀ row ∈ learn true rule W x y eta, l2norm row = 1 ∨ ∀ e ∈ row, e = 0 := by
  intro row hrow
  have hL : learn true rule W x y eta = normalizeRows (applyRule rule W x y eta) := rfl
  rw [hL] at hrow
  obtain ⟨r, _, rfl⟩ := List.mem_map.1 hrow
  by_cases h0 : sqNorm r = 0
  · right
    intro e he
    obtain ⟨a, ha, rfl⟩ := List.mem_map.1 he
    rw [sqNorm_eq_zero h0 a ha, zero_div]
  · left
    have hpos : 0 < sqNorm r := lt_of_le_of_ne (sqNorm_nonneg r) (Ne.symm h0)
    unfold l2norm at *
    rw [sqNorm_map_div, Real.mul_self_sqrt (sqNorm_nonneg r), div_self h0, Real.sqrt_one]

/-- Witness for `oja_row_norm`: a Hebbian update of a zero `1 × 1` layer by
`x = [2]`, `y = [1]`, `eta = 1` produces the row `[2]`, normalized to `[1]`
of norm one. -/
theorem oja_row_norm_witness :
    ([(1 : ℝ)] ∈ learn true Rule.hebb [[(0 : ℝ)]] [(2 : ℝ)] [(1 : ℝ)] 1) ∧
      (l2norm [(1 : ℝ)] = 1 ∨ ∀ e ∈ ([(1 : ℝ)] : Vec ℝ), e = 0) := by
  have hW : applyRule Rule.hebb [[(0 : ℝ)]] [(2 : ℝ)] [(1 : ℝ)] 1 = [[(2 : ℝ)]] := by
    norm_num [applyRule, r_hebb, matAdd, smulMat, outer]
  have hnorm : l2norm [(2 : ℝ)] = 2 := by
    unfold l2norm sqNorm
    norm_num
    rw [show (4 : ℝ) = 2 ^ 2 by norm_num]
    exact Real.sqrt_sq (by norm_num)
  have hlearn : learn true Rule.hebb [[(0 : ℝ)]] [(2 : ℝ)] [(1 : ℝ)] 1 = [[(1 : ℝ)]] := by
    have hL : learn true Rule.hebb [[(0 : ℝ)]] [(2 : ℝ)] [(1 : ℝ)] 1
        = normalizeRows (applyRule Rule.hebb [[(0 : ℝ)]] [(2 : ℝ)] [(1 : ℝ)] 1) := rfl
    rw [hL, hW]
    unfold normalizeRows
    simp only [List.map_cons, List.map_nil, hnorm]
    norm_num
  have hmem : [(1 : ℝ)] ∈ learn true Rule.hebb [[(0 : ℝ)]] [(2 : ℝ)] [(1 : ℝ)] 1 := by
    rw [hlearn]
    exact List.mem_singleton.2 rfl
  exact ⟨hmem, oja_row_norm Rule.hebb [[(0 : ℝ)]] [(2 : ℝ)] [(1 : ℝ)] 1 [(1 : ℝ)] hmem⟩

/-! ### Shape preservation -/

/-- The zero initialization has the declared shape. -/
theorem hasShape_zeroWeights {α : Type} [Field α] (nI nN : ℕ) :
    HasShape (zeroWeights nI nN : Mat α) nN nI := by
  refine ⟨List.length_replicate nN _, ?_⟩
  intro r hr
  rw [(List.mem_replicate.1 hr).2]
  exact List.length_replicate nI _

/-- Row normalization preserves the shape. -/
theorem hasShape_normalizeRows {W : Mat ℝ} {m n : ℕ} (h : HasShape W m n) :
    HasShape (normalizeRows W) m n := by
  refine ⟨by rw [normalizeRows, List.length_map]; exact h.1, ?_⟩
  intro r hr
  obtain ⟨a, ha, rfl⟩ := List.mem_map.1 hr
  rw [List.length_map]
  exact h.2 a ha

/-- Every one of the three update rules maps a weight matrix of the
declared shape, an input of length `nInputs` and an output of length
`nNeurons` back to the declared shape. -/
theorem hasShape_applyRule {α : Type} [Field α] (rule : Rule) {W : Mat α} {m n : ℕ}
    {x y : Vec α} (hW : HasShape W m n) (hx : x.length = n) (hy : y.length = m) (eta : α) :
    HasShape (applyRule rule W x y eta) m n := by
  cases rule with
  | hebb =>
    refine ⟨?_, ?_⟩
    · show (matAdd W (smulMat eta (outer y x))).length = m
      rw [matAdd, List.length_zipWith, smulMat, List.length_map, outer, List.length_map, hy,
        hW.1, min_self]
    · intro r hr
      obtain ⟨a, ha, b, hb, rfl⟩ := mem_zipWith hr
      obtain ⟨b', hb', rfl⟩ := List.mem_map.1 hb
      obtain ⟨yi, _, rfl⟩ := List.mem_map.1 hb'
      rw [List.length_zipWith, List.length_map, List.length_map, hx, hW.2 a ha, min_self]
  | decay =>
    refine ⟨?_, ?_⟩
    · show (List.zipWith _ W y).length = m
      rw [List.length_zipWith, hy, hW.1, min_self]
    · intro r hr
      obtain ⟨a, ha, b, _, rfl⟩ := mem_zipWith hr
      rw [List.length_zipWith, hx, hW.2 a ha, min_self]
  | ojas =>
    refine ⟨?_, ?_⟩
    · show (List.zipWith _ W y).length = m
      rw [List.length_zipWith, hy, hW.1, min_self]
    · intro r hr
      obtain ⟨a, ha, b, _, rfl⟩ := mem_zipWith hr
      rw [List.length_zipWith, hx, hW.2 a ha, min_self]

/-- One `learn` call preserves the shape, with or without normalization. -/
theorem hasShape_learn (normalize : Bool) (rule : Rule) {W : Mat ℝ} {m n : ℕ}
    {x y : Vec ℝ} (hW : HasShape W m n) (hx : x.length = n) (hy : y.length = m) (eta : ℝ) :
    HasShape (learn normalize rule W x y eta) m n := by
  have happ := hasShape_applyRule rule hW hx hy eta
  cases normalize with
  | false => exact happ
  | true => exact hasShape_normalizeRows happ

/-- Any finite sequence of `learn` calls with inputs of the declared
lengths preserves the shape. -/
theorem hasShape_learnSeq (normalize : Bool) (rule : Rule) {m n : ℕ} :
    ∀ (calls : List (Vec ℝ × Vec ℝ × ℝ)) {W : Mat ℝ}, HasShape W m n →
      (∀ c ∈ calls, c.1.length = n ∧ c.2.1.length = m) →
      HasShape (learnSeq normalize rule calls W) m n := by
  intro calls
  induction calls with
  | nil => intro W hW _; exact hW
  | cons c t ih =>
    intro W hW hc
    have h1 := hc c (by simp)
    have hstep := hasShape_learn normalize rule hW h1.1 h1.2 c.2.2
    have : learnSeq normalize rule (c :: t) W
        = learnSeq normalize rule t (learn normalize rule W c.1 c.2.1 c.2.2) := rfl
    rw [this]
    exact ih hstep (fun d hd => hc d (List.mem_cons_of_mem _ hd))

/-- Claim C5: for every layer constructed with valid `(nInputs, nNeurons)`
— zero or row-normalized random initialization, any of the three update
rules, normalization on or off — after any finite sequence of `learn`
calls with inputs of the declared lengths, `getWeights` returns a matrix
of shape `(nNeurons, nInputs)`. -/
theorem layer_shape_invariant (nI nN : ℕ) (random normalize : Bool) (rule : Rule)
    (draw : Mat ℝ) (calls : List (Vec ℝ × Vec ℝ × ℝ))
    (_hpos : 0 < nI ∧ 0 < nN) (hdraw : HasShape draw nN nI)
    (hcalls : ∀ c ∈ calls, c.1.length = nI ∧ c.2.1.length = nN) :
    HasShape (getWeights (learnSeq normalize rule calls (layerInit random draw nI nN))) nN nI
    := by
  have hinit : HasShape (layerInit random draw nI nN) nN nI := by
    cases random with
    | false => exact hasShape_zeroWeights nI nN
    | true => exact hasShape_normalizeRows hdraw
  exact hasShape_learnSeq normalize rule calls hinit hcalls

/-- Witness for `layer_shape_invariant`: a `1 × 2` Oja-configured layer
after one learn call. -/
theorem layer_shape_invariant_witness :
    ((0 < 2 ∧ 0 < 1) ∧ HasShape ([[(1 : ℝ), (2 : ℝ)]] : Mat ℝ) 1 2 ∧
        (∀ c ∈ ([([(5 : ℝ), (6 : ℝ)], [(7 : ℝ)], (2 : ℝ))] :
          List (Vec ℝ × Vec ℝ × ℝ)), c.1.length = 2 ∧ c.2.1.length = 1)) ∧
      HasShape (getWeights (learnSeq true Rule.ojas
        ([([(5 : ℝ), (6 : ℝ)], [(7 : ℝ)], (2 : ℝ))])
        (layerInit false [[(1 : ℝ), (2 : ℝ)]] 2 1))) 1 2 := by
  have h1 : (0 < 2 ∧ 0 < 1) := by omega
  have h2 : HasShape ([[(1 : ℝ), (2 : ℝ)]] : Mat ℝ) 1 2 := by
    refine ⟨rfl, ?_⟩
    intro r hr
    rw [List.eq_of_mem_singleton hr]
    rfl
  have h3 : ∀ c ∈ ([([(5 : ℝ), (6 : ℝ)], [(7 : ℝ)], (2 : ℝ))] :
      List (Vec ℝ × Vec ℝ × ℝ)), c.1.length = 2 ∧ c.2.1.length = 1 := by
    intro c hc
    rw [List.eq_of_mem_singleton hc]
    exact ⟨rfl, rfl⟩
  exact ⟨⟨h1, h2, h3⟩,
    layer_shape_invariant 2 1 false true Rule.ojas [[(1 : ℝ), (2 : ℝ)]]
      ([([(5 : ℝ), (6 : ℝ)], [(7 : ℝ)], (2 : ℝ))]) h1 h2 h3⟩

/-! ### Fidelity of the embedded prediction

`runTest` in the source takes `np.argmax(softmax(predvec))` over floats;
`predictOf` takes `argmaxIdx predvec` over the rationals.  The two agree
because `softmax` (and the cast from exact rationals to the reals) is
strictly monotone. -/

/-- `np.argmax` is invariant under a strictly monotone transformation. -/
theorem argmaxIdx_map_strictMono {α β : Type} [LinearOrder α] [LinearOrder β] {f : α → β}
    (hf : StrictMono f) : ∀ (l : List α), argmaxIdx (l.map f) = argmaxIdx l := by
  intro l
  induction l with
  | nil => rfl
  | cons x xs ih =>
    rw [List.map_cons]
    simp only [argmaxIdx, ih]
    rw [List.get?_eq_getElem?, List.getElem?_map, ← List.get?_eq_getElem?]
    cases hm : xs.get? (argmaxIdx xs) with
    | none => rfl
    | some m =>
      simp only [Option.map_some']
      by_cases hlt : x < m
      · rw [if_pos (hf hlt), if_pos hlt]
      · rw [if_neg (fun h => hlt (hf.lt_iff_lt.1 h)), if_neg hlt]

/-- The normalizing denominator of `softmax` is positive on a nonempty
vector. -/
theorem softmax_denom_pos (v : List ℝ) (hv : v ≠ []) :
    0 < (v.map (fun t => Real.exp (t - npMax v))).sum := by
  cases v with
  | nil => exact absurd rfl hv
  | cons a t =>
    rw [List.map_cons, List.sum_cons]
    have h1 : 0 < Real.exp (a - npMax (a :: t)) := Real.exp_pos _
    have h2 : (0 : ℝ) ≤ (t.map (fun s => Real.exp (s - npMax (a :: t)))).sum := by
      refine List.sum_nonneg ?_
      intro z hz
      obtain ⟨w, _, rfl⟩ := List.mem_map.1 hz
      exact (Real.exp_pos _).le
    linarith

/-- `argmax ∘ softmax = argmax` on nonempty real vectors: the max
subtraction, the exponential and the division by the positive sum are all
strictly monotone. -/
theorem argmaxIdx_softmax (v : List ℝ) (hv : v ≠ []) :
    argmaxIdx (softmax v) = argmaxIdx v := by
  have hS := softmax_denom_pos v hv
  have hsm : softmax v = v.map (fun t =>
      Real.exp (t - npMax v) / (v.map (fun s => Real.exp (s - npMax v))).sum) := by
    unfold softmax
    rw [List.map_map]
    rfl
  rw [hsm]
  refine argmaxIdx_map_strictMono ?_ v
  intro a b hab
  exact (div_lt_div_iff_of_pos_right hS).2 (Real.exp_lt_exp.2 (by linarith))

/-- The embedded prediction agrees with the source's
`np.argmax(softmax(...))` once the rational output vector is read as real
numbers: casting is strictly monotone and `softmax` does not move the
argmax. -/
theorem argmaxIdx_softmax_cast (v : List ℚ) (hv : v ≠ []) :
    argmaxIdx (softmax (v.map (fun q : ℚ => (q : ℝ)))) = argmaxIdx v := by
  have hmapne : v.map (fun q : ℚ => (q : ℝ)) ≠ [] := by
    cases v with
    | nil => exact absurd rfl hv
    | cons a t => simp
  rw [argmaxIdx_softmax _ hmapne]
  have hcast : StrictMono (fun q : ℚ => (q : ℝ)) := fun a b hab => Rat.cast_lt.2 hab
  exact argmaxIdx_map_strictMono hcast v

end ClassifierHO
